import Mathlib

/-!
Verification of the `segan/transforms.py` audio-augmentation module.

Sample values are modelled as exact rationals (`ℚ`) where the claims are
about control flow, lengths and index arithmetic, and as reals (`ℝ`) where
the claims are about the SNR numerics (square roots and powers of ten).
Floating-point rounding is not modelled; every arithmetic step of the
source is translated exactly.
-/

set_option autoImplicit false

/-! ### Python / numpy primitives -/

/-- Python `int(q)`: truncation toward zero. -/
def truncQ (q : ℚ) : ℤ :=
  if 0 ≤ q then ⌊q⌋ else ⌈q⌉

/-- `np.round`: round half to even (banker's rounding), as numpy does. -/
def np_roundQ (q : ℚ) : ℤ :=
  let f := ⌊q⌋
  let r := q - (f : ℚ)
  if r < 1/2 then f
  else if 1/2 < r then f + 1
  else if f % 2 = 0 then f else f + 1

/-- Normalise a (possibly negative) Python slice index against a list of
length `n`: negative indices count from the end, and indices are clamped
to `[0, n]`. -/
def pyIdx (n : ℕ) (i : ℤ) : ℕ :=
  if i < 0 then ((n : ℤ) + i).toNat else min i.toNat n

/-- Python list/array slice `l[b:e]`. -/
def pySlice {α : Type} (l : List α) (b e : ℤ) : List α :=
  let b2 := pyIdx l.length b
  let e2 := pyIdx l.length e
  (l.drop b2).take (e2 - b2)

/-- `np.max` on a non-empty array (fold of `max` over the elements). -/
def npMax (xs : List ℚ) : ℚ :=
  xs.foldl max (xs.headD 0)

/-- `np.min` on a non-empty array. -/
def npMin (xs : List ℚ) : ℚ :=
  xs.foldl min (xs.headD 0)

/-! ### PCompose (transforms.py lines 22-43)

A transform either returns a bare buffer or a `(buffer, report)` pair;
the source detects the pair by `len(x) == 2`, which we model by matching
on the result shape. The per-transform Bernoulli draws of
`random.random()` (values in `[0,1)`) are supplied as an explicit draw
stream `g : ℕ → ℚ`, one draw consumed per transform in list order. -/

/-- Result of one transform: a buffer, or a buffer paired with a report. -/
inductive TRes (ρ : Type) : Type where
  | plain : List ℚ → TRes ρ
  | reported : List ℚ → ρ → TRes ρ

/-- `PCompose.__call__`: for each transform in order, draw `g k`; apply the
transform when the draw is `≤ probs`; a `(buffer, report)` result is
unpacked and the report accumulated in order. -/
def pcompose {ρ : Type} (probs : ℚ) :
    List (List ℚ → TRes ρ) → (ℕ → ℚ) → List ℚ → List ℚ × List ρ
  | [], _, x => (x, [])
  | t :: ts, g, x =>
      if g 0 ≤ probs then
        match t x with
        | .plain y => pcompose probs ts (fun n => g (n+1)) y
        | .reported y r =>
            let p := pcompose probs ts (fun n => g (n+1)) y
            (p.1, r :: p.2)
      else pcompose probs ts (fun n => g (n+1)) x

/-- Spec-side composition ("applies each transform in list order,
concatenating any emitted reports"), for comparison with `pcompose`. -/
def applyAll {ρ : Type} :
    List (List ℚ → TRes ρ) → List ℚ → List ℚ × List ρ
  | [], x => (x, [])
  | t :: ts, x =>
      match t x with
      | .plain y => applyAll ts y
      | .reported y r =>
          let p := applyAll ts y
          (p.1, r :: p.2)

/-- A transform that demonstrably changes its input (prepends a sample). -/
def t0 : List ℚ → TRes Unit := fun x => .plain (0 :: x)

/-- Draw stream that always returns `0` (a value `random.random` can hit). -/
def gzero : ℕ → ℚ := fun _ => 0

/-- Draw stream that always returns `1/2`. -/
def ghalf : ℕ → ℚ := fun _ => mkRat 1 2

/-! ### Additive noise injector (transforms.py lines 186-271)

`addnoise_asl` is modelled over `ℝ` (its numerics involve square roots
and powers of ten). The active-speech-level estimate `Px` produced by
`asl_P56` is passed in as a parameter: it does not influence any control
flow of `addnoise_asl`. The single `np.random.rand` draw `u ∈ [0,1)` is
an explicit rational argument, so that the rounded segment start is
computed exactly. -/

/-- Errors `addnoise_asl` can raise: its own noise-length `ValueError`,
and the numpy broadcast error from adding arrays of incompatible shapes. -/
inductive AddErr : Type where
  | insufficientNoiseLength : AddErr
  | broadcast : AddErr
deriving DecidableEq

/-- numpy 1-D element-wise addition: equal lengths add pointwise, a
length-1 operand broadcasts, anything else raises. -/
def np_add (x y : List ℝ) : Except AddErr (List ℝ) :=
  if x.length = y.length then .ok (List.zipWith (· + ·) x y)
  else if y.length = 1 then .ok (x.map (· + y.headD 0))
  else if x.length = 1 then .ok (y.map (x.headD 0 + ·))
  else .error .broadcast

/-- Dot product `np.dot` of two 1-D arrays. -/
def dotR (a b : List ℝ) : ℝ :=
  (List.zipWith (· * ·) a b).sum

/-- The scale factor `sf = np.sqrt(Px / Pn / (10 ** (snr / 10)))` from
line 266. -/
noncomputable def sf (Px Pn snr : ℝ) : ℝ :=
  Real.sqrt (Px / Pn / Real.rpow 10 (snr / 10))

/-- `Additive.addnoise_asl` (lines 235-271), with `do_IRS = False`:
length check, random segment start `int(np.round((noise_len-x_len)*u + 1))`,
segment extraction, noise power, scaling, and the final add. -/
noncomputable def addnoise_asl (Px : ℝ) (clean noise : List ℝ)
    (u : ℚ) (snr : ℝ) : Except AddErr (List ℝ) :=
  let x_len := clean.length
  let noise_len := noise.length
  if noise_len ≤ x_len then .error .insufficientNoiseLength
  else
    let rand_start : ℤ := np_roundQ (((noise_len : ℚ) - (x_len : ℚ)) * u + 1)
    let noise_segment := pySlice noise rand_start (rand_start + (x_len : ℤ))
    let Pn := dotR noise_segment noise_segment / (x_len : ℝ)
    let noise_scaled := noise_segment.map (· * sf Px Pn snr)
    np_add clean noise_scaled

/-! ### De-clip loop of `Additive.__call__` (lines 226-232) -/

/-- The de-clip loop body: while the output exceeds `[-1, 1]` on either
side, divide every sample by `(1 + small)` and grow `small` by `0.1`.
Structural fuel bounds the iterations (the source loop is unbounded). -/
def declipGo : ℕ → List ℚ → ℚ → List ℚ
  | 0, xs, _ => xs
  | fuel + 1, xs, small =>
      if 1 ≤ npMax xs ∨ npMin xs < -1 then
        declipGo fuel (xs.map (· / (1 + small))) (small + 1/10)
      else xs

/-- The de-clip loop with `small` starting at `0.1`. -/
def declip (fuel : ℕ) (xs : List ℚ) : List ℚ :=
  declipGo fuel xs (1/10)

/-! ### `Additive.bin_interp` (lines 392-434): ASL bisection -/

/-- Mutable state of the `bin_interp` loop: current count/threshold
midpoints, current tolerance and the iteration counter. -/
structure BIState : Type where
  midcount : ℚ
  midthr : ℚ
  tol : ℚ
  iterno : ℕ
deriving DecidableEq

/-- One pass of the `while True` body of `bin_interp`: break when
`|diff| <= tol`, otherwise bump `iterno` (relaxing `tol` by 10% past 20
iterations) and move the midpoints; note the source's asymmetric
`(midcount - lwcount) / 2` in the `diff < -tol` branch. -/
def binStep (upcount lwcount upthr lwthr Margin : ℚ) (s : BIState) :
    BIState ⊕ (ℚ × ℚ) :=
  let diff := s.midcount - s.midthr - Margin
  if |diff| ≤ s.tol then .inr (s.midcount, s.midthr)
  else
    let iterno := s.iterno + 1
    let tol := if 20 < iterno then s.tol * (11/10) else s.tol
    if tol < diff then
      .inl ⟨(upcount + s.midcount) / 2, (upthr + s.midthr) / 2, tol, iterno⟩
    else if diff < -tol then
      .inl ⟨(s.midcount - lwcount) / 2, (s.midthr + lwthr) / 2, tol, iterno⟩
    else
      .inl ⟨s.midcount, s.midthr, tol, iterno⟩

/-- The `while True` loop of `bin_interp`, with structural fuel. -/
def binLoop (upcount lwcount upthr lwthr Margin : ℚ) :
    ℕ → BIState → Option (ℚ × ℚ)
  | 0, _ => none
  | fuel + 1, s =>
      match binStep upcount lwcount upthr lwthr Margin s with
      | .inr r => some r
      | .inl s2 => binLoop upcount lwcount upthr lwthr Margin fuel s2

/-- `Additive.bin_interp`: tolerance made non-negative, the two early
returns (both of which yield `(lwcount, lwthr)` in the source), then the
bisection loop started from the bracket midpoints with `iterno = 1`. -/
def bin_interp (upcount lwcount upthr lwthr Margin tol0 : ℚ) (fuel : ℕ) :
    Option (ℚ × ℚ) :=
  let tol := |tol0|
  if |upcount - upthr - Margin| < tol then some (lwcount, lwthr)
  else if |lwcount - lwthr - Margin| < tol then some (lwcount, lwthr)
  else binLoop upcount lwcount upthr lwthr Margin fuel
    ⟨(upcount + lwcount) / 2, (upthr + lwthr) / 2, tol, 1⟩

/-! ### Chopper (transforms.py lines 445-556) -/

/-- A speech region tuple `(beg_sample, center_sample, duration)` as
produced by `Chopper.vad_wav`; the center is a float in the source. -/
abbrev Region : Type := ℕ × ℚ × ℕ

/-- Closing a speech run (lines 483-487): `end_sample = init + cnt*160`,
`center = init + (end_sample - init)/2`, region `(init, center, cnt*160)`. -/
def closeRegion (init cnt : ℕ) : Region :=
  (init, (init : ℚ) + (((init + cnt * 160 : ℕ) : ℚ) - (init : ℚ)) / 2,
   cnt * 160)

/-- The window scan of `Chopper.vad_wav` (lines 472-490) over the
16-bit-integer samples: 160-sample windows; a window is treated as
speech when it is full-sized and the external `webrtcvad` classifier
`isSp` accepts it; otherwise an open run is closed and emitted. The
scan is structurally recursive on a fuel argument (one unit per window;
`wav.length` is always enough fuel). A run still open when the samples
run out is never emitted, exactly as in the source. -/
def vad_scan (isSp : List ℤ → Bool) :
    ℕ → List ℤ → ℕ → Option ℕ → ℕ → List Region
  | 0, _, _, _, _ => []
  | _ + 1, [], _, _, _ => []
  | fuel + 1, x :: rest, beg, init, cnt =>
      if 160 ≤ ((x :: rest).take 160).length
          ∧ isSp ((x :: rest).take 160) = true then
        vad_scan isSp fuel ((x :: rest).drop 160) (beg + 160)
          (some (init.getD beg)) (cnt + 1)
      else
        (match init with
         | some i => [closeRegion i cnt]
         | none => []) ++
          vad_scan isSp fuel ((x :: rest).drop 160) (beg + 160) none 0

/-- `Chopper.vad_wav` at the single supported rate of 16 kHz. -/
def vad_wav (isSp : List ℤ → Bool) (wav : List ℤ) : List Region :=
  vad_scan isSp wav.length wav 0 none 0

/-- The per-window classification flags of a waveform: one Boolean per
window, `true` for a full-sized window accepted by the classifier (an
undersized trailing window is always `false`). -/
def winFlagsGo (isSp : List ℤ → Bool) : ℕ → List ℤ → List Bool
  | 0, _ => []
  | _ + 1, [] => []
  | fuel + 1, x :: rest =>
      (decide (160 ≤ ((x :: rest).take 160).length)
          && isSp ((x :: rest).take 160))
        :: winFlagsGo isSp fuel ((x :: rest).drop 160)

/-- All window flags of a waveform. -/
def winFlags (isSp : List ℤ → Bool) (wav : List ℤ) : List Bool :=
  winFlagsGo isSp wav.length wav

/-- The region state machine on window flags: same open/close run logic
as `vad_scan`, used to express the run structure of `vad_wav`. -/
def vadF : List Bool → ℕ → Option ℕ → ℕ → List Region
  | [], _, _, _ => []
  | true :: bs, beg, init, cnt =>
      vadF bs (beg + 160) (some (init.getD beg)) (cnt + 1)
  | false :: bs, beg, init, cnt =>
      (match init with
       | some i => [closeRegion i cnt]
       | none => []) ++ vadF bs (beg + 160) none 0

/-- The concrete classifier used by the synthetic VAD examples: a window
is speech when its first sample is `1`. -/
def spHead1 : List ℤ → Bool := fun f => decide (f.headD 0 = 1)

/-- One full 160-sample window of speech, with the buffer ending exactly
on the window boundary. -/
def wav160 : List ℤ := List.replicate 160 1

/-- One full speech window plus an undersized trailing sample. -/
def wav161 : List ℤ := List.replicate 160 1 ++ [0]

/-- The window-flag sequence [speech]x5, [silence]x3, [speech]x4 of the
claim's synthetic example, followed by the `false` flag of an undersized
trailing window. -/
def flags534 : List Bool :=
  List.replicate 5 true ++ List.replicate 3 false
    ++ List.replicate 4 true ++ [false]

/-- Random draws consumed by one `chop_wav` call: the chop-count draw
from `range(1, max_chops+1)`, the without-replacement index draw used
when more than one chop is made, and the per-chop factor-index and
standard-normal draws, indexed by loop position. -/
structure ChopDraws : Type where
  num : ℕ
  idxs : List ℕ
  fidx : ℕ → ℕ
  randn : ℕ → ℚ

/-- The chop window of one loop iteration of `chop_wav` (lines 510-528):
pick the region `chop_i`, a chop factor `(mean, std)`, duration
`mean + randn*std` seconds, `chop_s_dur = int(dur * srate)` samples, and
the window `[max(int(center - dur/2), beg), min(int(center + dur/2),
beg + reg_dur))` clipped to the region. -/
def chop_bounds (cf : List (ℚ × ℚ)) (srate : ℕ) (regions : List Region)
    (d : ChopDraws) (pos ci : ℕ) : ℤ × ℤ :=
  let r := regions.getD ci (0, 0, 0)
  let f := cf.getD (d.fidx pos) (0, 0)
  let chop_dur := f.1 + d.randn pos * f.2
  let chop_s_dur := truncQ (chop_dur * (srate : ℚ))
  (max (truncQ (r.2.1 - (chop_s_dur : ℚ) / 2)) (r.1 : ℤ),
   min (truncQ (r.2.1 + (chop_s_dur : ℚ) / 2)) ((r.1 : ℤ) + (r.2.2 : ℤ)))

/-- Zero every element whose (offset) index falls in `[b, e)`. -/
def zeroFrom {α : Type} [Zero α] (b e : ℕ) : ℕ → List α → List α
  | _, [] => []
  | i, x :: xs => (if b ≤ i ∧ i < e then 0 else x) :: zeroFrom b e (i + 1) xs

/-- numpy slice assignment `w[b:e] = 0`, with Python index semantics. -/
def zeroSlice {α : Type} [Zero α] (w : List α) (b e : ℤ) : List α :=
  zeroFrom (pyIdx w.length b) (pyIdx w.length e) 0 w

/-- The chopping loop of `chop_wav`: one zeroed window per chosen index. -/
def chop_apply {α : Type} [Zero α] (cf : List (ℚ × ℚ)) (srate : ℕ)
    (regions : List Region) (d : ChopDraws) :
    List ℕ → ℕ → List α → List α
  | [], _, w => w
  | ci :: rest, pos, w =>
      chop_apply cf srate regions d rest (pos + 1)
        (zeroSlice w (chop_bounds cf srate regions d pos ci).1
          (chop_bounds cf srate regions d pos ci).2)

/-- `Chopper.chop_wav` (lines 492-529): unchanged input when no regions;
otherwise chop count clamped to the region count, index list `[0]` when
the count is 1 and the without-replacement draw otherwise, then one
zeroed window per chosen region on a copy of the buffer. -/
def chop_wav {α : Type} [Zero α] (cf : List (ℚ × ℚ)) (srate : ℕ)
    (wav : List α) (regions : List Region) (d : ChopDraws) : List α :=
  if regions = [] then wav
  else
    chop_apply cf srate regions d
      (if min d.num regions.length = 1 then [0] else d.idxs) 0 wav

/-- The support of the region-index draw on line 506:
`np.random.choice(list(range(chops)), chops, replace=False)` draws from
`list(range(chops))` with `chops = min(drawn count, region count)`. -/
def chop_idx_support (regions : List Region) (numDraw : ℕ) : List ℕ :=
  List.range (min numDraw regions.length)

/-- The normalised index windows zeroed by the chopping loop on a buffer
of length `n`. -/
def chop_windows_go (cf : List (ℚ × ℚ)) (srate : ℕ) (regions : List Region)
    (d : ChopDraws) (n : ℕ) : List ℕ → ℕ → List (ℕ × ℕ)
  | [], _ => []
  | ci :: rest, pos =>
      (pyIdx n (chop_bounds cf srate regions d pos ci).1,
       pyIdx n (chop_bounds cf srate regions d pos ci).2)
        :: chop_windows_go cf srate regions d n rest (pos + 1)

/-- The normalised windows zeroed by one `chop_wav` call. -/
def chop_windows (cf : List (ℚ × ℚ)) (srate : ℕ) (regions : List Region)
    (d : ChopDraws) (n : ℕ) : List (ℕ × ℕ) :=
  chop_windows_go cf srate regions d n
    (if min d.num regions.length = 1 then [0] else d.idxs) 0

/-- A concrete one-region list for the chop examples. -/
def regions1 : List Region := [(0, 80, 160)]

/-- A concrete three-region list. -/
def regions3 : List Region := [(0, 80, 160), (160, 240, 160), (320, 400, 160)]

/-- A concrete chop-factor configuration: mean 0.01 s, std 0. -/
def cf0 : List (ℚ × ℚ) := [(1/100, 0)]

/-- Trivial draws: chop count 1, all other draws zero. -/
def d0 : ChopDraws := ⟨1, [], fun _ => 0, fun _ => 0⟩

/-- `astype(np.int16)`: truncation toward zero, wrapped into the 16-bit
two's-complement range (as numpy does for in-64-bit-range values). -/
def toInt16 (q : ℚ) : ℤ :=
  (truncQ q + 32768) % 65536 - 32768

/-- `Chopper.__call__` (lines 531-549): denormalise the unit-float input
by dividing by `1/(2**15 - 1)`, cast to int16, detect speech regions,
chop, cast back to float and normalise by dividing by `2**15 - 1`. -/
def chopper_call (cf : List (ℚ × ℚ)) (isSp : List ℤ → Bool)
    (d : ChopDraws) (wav : List ℚ) : List ℚ :=
  let iw := wav.map fun q => toInt16 (q / (1 / ((2 ^ 15 : ℚ) - 1)))
  let regions := vad_wav isSp iw
  let chopped := chop_wav cf 16000 iw regions d
  chopped.map fun z : ℤ => (z : ℚ) / ((2 ^ 15 : ℚ) - 1)

/-- The int16 quantisation that the outer `Chopper.__call__` applies to
every sample even when nothing is chopped. -/
def quant16 (q : ℚ) : ℚ :=
  (toInt16 (q / (1 / ((2 ^ 15 : ℚ) - 1))) : ℚ) / ((2 ^ 15 : ℚ) - 1)

/-- A classifier that never reports speech. -/
def spNever : List ℤ → Bool := fun _ => false

/-! ### Theorems -/

/-- C6 counterexample: with `probs = 0` and a draw stream that returns
exactly `0.0` (a value `random.random()` can produce), the test
`random.random() <= self.probs` succeeds, so the transform is applied and
the input is changed: `pcompose` with `p = 0` is not the identity for
every possible draw sequence. -/
theorem pcompose_p0_zero_draw_applies :
    pcompose 0 [t0] gzero [1] = ([0, 1], ([] : List Unit)) ∧
      ([0, 1] : List ℚ) ≠ [1] := by
  constructor
  · rfl
  · decide

/-- C6 (amended): probabilistic-compose with `p = 0` returns the input
unchanged for every draw sequence whose draws are all strictly positive
(a draw of exactly `0` passes the `<=` test and applies the transform),
and with `p = 1` it applies every transform in list order for every draw
sequence of values below `1`. -/
theorem pcompose_p0_identity_p1_all {ρ : Type}
    (ts : List (List ℚ → TRes ρ)) (g : ℕ → ℚ) (x : List ℚ) :
    ((∀ n, 0 < g n) → pcompose 0 ts g x = (x, []))
      ∧ ((∀ n, g n < 1) → pcompose 1 ts g x = applyAll ts x) := by
  induction ts generalizing g x with
  | nil => exact ⟨fun _ => rfl, fun _ => rfl⟩
  | cons t ts ih =>
      constructor
      · intro hg
        have hgate : ¬ g 0 ≤ 0 := not_le.mpr (hg 0)
        simp only [pcompose, if_neg hgate]
        exact (ih (fun n => g (n+1)) x).1 (fun n => hg (n+1))
      · intro hg
        have hgate : g 0 ≤ 1 := le_of_lt (hg 0)
        simp only [pcompose, if_pos hgate, applyAll]
        cases t x with
        | plain y =>
            exact (ih (fun n => g (n+1)) y).2 (fun n => hg (n+1))
        | reported y r =>
            simp only []
            rw [(ih (fun n => g (n+1)) y).2 (fun n => hg (n+1))]

/-- C6 witness: the amended theorem applied to a concrete transform list,
input and draw stream. -/
theorem pcompose_p0_identity_p1_all_witness :
    pcompose 0 [t0] ghalf [5] = ([5], ([] : List Unit))
      ∧ pcompose 1 [t0] ghalf [5] = applyAll [t0] [5] := by
  refine ⟨(pcompose_p0_identity_p1_all [t0] ghalf [5]).1 ?_,
          (pcompose_p0_identity_p1_all [t0] ghalf [5]).2 ?_⟩
  · intro n
    show (0 : ℚ) < mkRat 1 2
    decide
  · intro n
    show (mkRat 1 2 : ℚ) < 1
    decide

/-- C3: for positive active speech energy `Px`, positive noise segment
power `Pn` and any SNR target `snr`, the scale factor of `addnoise_asl`
satisfies `Px / (sf^2 * Pn) = 10^(snr/10)` exactly in real arithmetic. -/
theorem addnoise_snr_ratio_exact (Px Pn snr : ℝ)
    (hx : 0 < Px) (hn : 0 < Pn) :
    Px / (sf Px Pn snr ^ 2 * Pn) = Real.rpow 10 (snr / 10) := by
  have hR : (0 : ℝ) < Real.rpow 10 (snr / 10) :=
    Real.rpow_pos_of_pos (by norm_num) _
  have harg : (0 : ℝ) ≤ Px / Pn / Real.rpow 10 (snr / 10) := by positivity
  rw [sf, Real.sq_sqrt harg]
  field_simp
  ring

/-- C3 witness: the exact-SNR theorem at `Px = 1`, `Pn = 1`, `snr = 0`. -/
theorem addnoise_snr_ratio_exact_witness :
    (1 : ℝ) / (sf 1 1 0 ^ 2 * 1) = Real.rpow 10 (0 / 10) :=
  addnoise_snr_ratio_exact 1 1 0 one_pos one_pos

/-- C8: `addnoise_asl` raises its noise-length error exactly when the
noise buffer is no longer than the clean buffer; in the error case no
output buffer is produced. -/
theorem addnoise_insufficient_iff (Px : ℝ) (clean noise : List ℝ)
    (u : ℚ) (snr : ℝ) :
    addnoise_asl Px clean noise u snr = .error .insufficientNoiseLength
      ↔ noise.length ≤ clean.length := by
  unfold addnoise_asl
  by_cases h : noise.length ≤ clean.length
  · simp [h]
  · simp only [if_neg h]
    constructor
    · intro hco
      exfalso
      revert hco
      unfold np_add
      split
      · intro hco
        exact Except.noConfusion hco
      · split
        · intro hco
          exact Except.noConfusion hco
        · split
          · intro hco
            exact Except.noConfusion hco
          · intro hco
            exact absurd (Except.error.inj hco) (by simp)
    · intro hco
      exact absurd hco h

/-- C5 failing input: clean of length 3, noise of length 5, draw
`u = 4/5`. Then `rand_start = round(2*(4/5) + 1) = 3 = noise_len - x_len + 1`,
the extracted segment `noise[3:6]` has only 2 samples instead of 3, and
the final `clean + noise_segment` add raises numpy's broadcast error, so
no output of the clean length is produced. -/
theorem addnoise_rand_start_overflow :
    addnoise_asl 0 [0, 0, 0] [0, 0, 0, 0, 0] (4/5) 0 = .error .broadcast := by
  have hround : np_roundQ ((((5:ℕ) : ℚ) - ((3:ℕ) : ℚ)) * (4/5) + 1) = 3 := by
    norm_num [np_roundQ]
  have hseg : pySlice ([0, 0, 0, 0, 0] : List ℝ) 3 6 = [0, 0] := rfl
  simp only [addnoise_asl, List.length_cons, List.length_nil, hround]
  norm_num [np_add]
  rw [hseg]
  norm_num

theorem le_foldl_max_init (a : ℚ) (xs : List ℚ) : a ≤ xs.foldl max a := by
  induction xs generalizing a with
  | nil => exact le_refl a
  | cons y ys ih => exact le_trans (le_max_left a y) (ih (max a y))

theorem le_foldl_max_of_mem {x : ℚ} {xs : List ℚ} (a : ℚ) (h : x ∈ xs) :
    x ≤ xs.foldl max a := by
  induction xs generalizing a with
  | nil => cases h
  | cons y ys ih =>
      rcases List.mem_cons.mp h with rfl | hmem
      · exact le_trans (le_max_right a x) (le_foldl_max_init (max a x) ys)
      · exact ih (max a y) hmem

theorem foldl_max_lt {c : ℚ} {xs : List ℚ} {a : ℚ}
    (ha : a < c) (h : ∀ x ∈ xs, x < c) : xs.foldl max a < c := by
  induction xs generalizing a with
  | nil => exact ha
  | cons y ys ih =>
      exact ih (max_lt ha (h y (List.mem_cons_self y ys)))
        (fun x hx => h x (List.mem_cons_of_mem y hx))

theorem le_foldl_min {c : ℚ} {xs : List ℚ} {a : ℚ}
    (ha : c ≤ a) (h : ∀ x ∈ xs, c ≤ x) : c ≤ xs.foldl min a := by
  induction xs generalizing a with
  | nil => exact ha
  | cons y ys ih =>
      exact ih (le_min ha (h y (List.mem_cons_self y ys)))
        (fun x hx => h x (List.mem_cons_of_mem y hx))

theorem mem_le_npMax {x : ℚ} {xs : List ℚ} (h : x ∈ xs) : x ≤ npMax xs :=
  le_foldl_max_of_mem _ h

theorem npMax_lt_of_forall {xs : List ℚ} {c : ℚ} (hne : xs ≠ [])
    (h : ∀ x ∈ xs, x < c) : npMax xs < c := by
  have hh : xs.headD 0 ∈ xs := by
    cases xs with
    | nil => exact absurd rfl hne
    | cons y ys => exact List.mem_cons_self y ys
  exact foldl_max_lt (h _ hh) h

theorem le_npMin_of_forall {xs : List ℚ} {c : ℚ} (hne : xs ≠ [])
    (h : ∀ x ∈ xs, c ≤ x) : c ≤ npMin xs := by
  have hh : xs.headD 0 ∈ xs := by
    cases xs with
    | nil => exact absurd rfl hne
    | cons y ys => exact List.mem_cons_self y ys
  exact le_foldl_min (h _ hh) h

/-- C7 counterexample: a buffer with maximum pre-clip value exactly
`1.05` but a sample below `-1.1` is still outside `[-1, 1]` after one
iteration of the de-clip loop, so the loop does not terminate after
exactly 1 iteration on every such buffer. -/
theorem declip_max_105_not_one_iter :
    npMax [21/20, -2] = 21/20
      ∧ declipGo 1 [21/20, -2] (1/10) = [21/22, -20/11]
      ∧ npMin [21/22, -20/11] < -1 := by
  have hc : (1 : ℚ) ≤ npMax [21/20, -2] ∨ npMin [21/20, -2] < -1 :=
    Or.inl (by norm_num [npMax, max_def])
  refine ⟨by norm_num [npMax, max_def], ?_, by norm_num [npMin, min_def]⟩
  simp only [declipGo, if_pos hc]
  norm_num

/-- C7 (amended): the de-clip loop divides the whole output by
`(1 + step)` with `step` starting at `0.1` and growing by `0.1` per
iteration until the output is back in `[-1, 1]`; for a buffer whose
maximum pre-clip value is exactly `1.05` and whose samples all lie at or
above `-1.1` (the bound forced by the counterexample), the loop runs and
terminates after exactly one iteration, leaving every sample in
`[-1, 1]`. -/
theorem declip_max_105_one_iter (xs : List ℚ) (fuel : ℕ) (hne : xs ≠ [])
    (hmax : npMax xs = 21/20) (hlow : ∀ x ∈ xs, -(11/10) ≤ x) :
    (1 ≤ npMax xs ∨ npMin xs < -1)
      ∧ declip (fuel + 2) xs = xs.map (· / (1 + 1/10))
      ∧ ∀ y ∈ xs.map (· / (1 + 1/10)), -1 ≤ y ∧ y ≤ 1 := by
  have hcond : 1 ≤ npMax xs ∨ npMin xs < -1 := Or.inl (by rw [hmax]; norm_num)
  have hub : ∀ x ∈ xs, x ≤ 21/20 := fun x hx => hmax ▸ mem_le_npMax hx
  have hne2 : xs.map (· / (1 + 1/10)) ≠ [] := by
    simp [hne]
  have hbnd : ∀ y ∈ xs.map (· / (1 + 1/10)), -1 ≤ y ∧ y ≤ 1 := by
    intro y hy
    rcases List.mem_map.mp hy with ⟨x, hx, rfl⟩
    have h1 := hub x hx
    have h2 := hlow x hx
    constructor
    · rw [le_div_iff₀ (by norm_num : (0:ℚ) < 1 + 1/10)]
      linarith
    · rw [div_le_one (by norm_num : (0:ℚ) < 1 + 1/10)]
      linarith
  have hstop : ¬ (1 ≤ npMax (xs.map (· / (1 + 1/10)))
      ∨ npMin (xs.map (· / (1 + 1/10))) < -1) := by
    push_neg
    constructor
    · refine npMax_lt_of_forall hne2 ?_
      intro y hy
      rcases List.mem_map.mp hy with ⟨x, hx, rfl⟩
      have h1 := hub x hx
      rw [div_lt_one (by norm_num : (0:ℚ) < 1 + 1/10)]
      linarith
    · refine le_npMin_of_forall hne2 ?_
      intro y hy
      exact (hbnd y hy).1
  refine ⟨hcond, ?_, hbnd⟩
  show declipGo (fuel + 1 + 1) xs (1/10) = xs.map (· / (1 + 1/10))
  rw [declipGo, if_pos hcond, declipGo, if_neg hstop]

/-- C7 witness: the amended de-clip theorem at the one-sample buffer
`[1.05]` with fuel `2`. -/
theorem declip_max_105_one_iter_witness :
    (1 ≤ npMax [21/20] ∨ npMin [21/20] < -1)
      ∧ declip 2 [21/20] = [21/20].map (· / (1 + 1/10))
      ∧ ∀ y ∈ ([21/20] : List ℚ).map (· / (1 + 1/10)), -1 ≤ y ∧ y ≤ 1 := by
  have h := declip_max_105_one_iter [21/20] 0 (by simp)
    (by norm_num [npMax, max_def])
    (by
      intro x hx
      rw [List.mem_singleton.mp hx]
      norm_num)
  exact h

/-- C4 counterexample: a non-converged iteration with `diff < -tol`
moves the count midpoint to `(midcount - lwcount)/2 = -2`, not to the
claimed average `(midcount + lwcount)/2 = 2`. -/
theorem binStep_low_branch_not_average :
    binStep 9 4 9 4 0 ⟨0, 10, 1, 1⟩ = .inl ⟨-2, 7, 1, 2⟩
      ∧ ((0 : ℚ) + 4) / 2 ≠ -2 := by
  constructor
  · norm_num [binStep, abs_le]
  · norm_num

/-- C4 (amended): in every non-converged iteration of `bin_interp`'s
loop, with `tol2` the (possibly 10%-relaxed) tolerance of that iteration:
if `diff > tol2` the count midpoint becomes the average of the upper
count and the count midpoint and the threshold midpoint the average of
the upper threshold and the threshold midpoint; if `diff < -tol2` the
count midpoint becomes half the **difference** `(midcount - lwcount)/2`
(not the average that symmetric bisection would use), while the
threshold midpoint does become the average `(midthr + lwthr)/2`. -/
theorem binStep_branch_updates (upcount lwcount upthr lwthr Margin : ℚ)
    (s : BIState) (tol2 : ℚ) (htolnn : 0 ≤ s.tol)
    (hdiff : ¬ |s.midcount - s.midthr - Margin| ≤ s.tol)
    (htol : tol2 = if 20 < s.iterno + 1 then s.tol * (11/10) else s.tol) :
    (tol2 < s.midcount - s.midthr - Margin →
      binStep upcount lwcount upthr lwthr Margin s =
        .inl ⟨(upcount + s.midcount) / 2, (upthr + s.midthr) / 2,
              tol2, s.iterno + 1⟩)
      ∧ (s.midcount - s.midthr - Margin < -tol2 →
      binStep upcount lwcount upthr lwthr Margin s =
        .inl ⟨(s.midcount - lwcount) / 2, (s.midthr + lwthr) / 2,
              tol2, s.iterno + 1⟩) := by
  subst htol
  constructor
  · intro hgt
    rw [binStep]
    simp only [if_neg hdiff, if_pos hgt]
  · intro hlt
    have htol2 : 0 ≤ (if 20 < s.iterno + 1 then s.tol * (11/10) else s.tol) := by
      split
      · nlinarith
      · exact htolnn
    have hngt : ¬ ((if 20 < s.iterno + 1 then s.tol * (11/10) else s.tol)
        < s.midcount - s.midthr - Margin) := by
      intro hgt
      linarith
    rw [binStep]
    simp only [if_neg hdiff, if_neg hngt, if_pos hlt]

/-- C4 witness: the branch-update theorem at a concrete non-converged
state with `diff < -tol`. -/
theorem binStep_branch_updates_witness :
    binStep 9 6 9 4 0 ⟨0, 20, 2, 3⟩ = .inl ⟨-3, 12, 2, 4⟩ := by
  have h := (binStep_branch_updates 9 6 9 4 0 ⟨0, 20, 2, 3⟩ 2 (by norm_num)
    (by norm_num [abs_le]) (by norm_num)).2 (by norm_num)
  convert h using 2
  norm_num

theorem vad_scan_eq_vadF (isSp : List ℤ → Bool) :
    ∀ (fuel : ℕ) (rem : List ℤ) (beg : ℕ) (init : Option ℕ) (cnt : ℕ),
      rem.length ≤ fuel →
      vad_scan isSp fuel rem beg init cnt
        = vadF (winFlagsGo isSp fuel rem) beg init cnt := by
  intro fuel
  induction fuel with
  | zero =>
      intro rem beg init cnt h
      have hnil : rem = [] := List.length_eq_zero.mp (Nat.le_zero.mp h)
      subst hnil
      rfl
  | succ fuel ih =>
      intro rem beg init cnt h
      cases rem with
      | nil => rfl
      | cons x rest =>
          have hlen : ((x :: rest).drop 160).length ≤ fuel := by
            rw [List.length_drop]
            simp only [List.length_cons] at h ⊢
            omega
          by_cases hc : 160 ≤ ((x :: rest).take 160).length
              ∧ isSp ((x :: rest).take 160) = true
          · have hflag : (decide (160 ≤ ((x :: rest).take 160).length)
                && isSp ((x :: rest).take 160)) = true := by
              rw [Bool.and_eq_true, decide_eq_true_eq]
              exact hc
            simp only [vad_scan, winFlagsGo, hflag, if_pos hc, vadF]
            exact ih _ _ _ _ hlen
          · have hflag : (decide (160 ≤ ((x :: rest).take 160).length)
                && isSp ((x :: rest).take 160)) = false := by
              rw [Bool.eq_false_iff]
              intro hT
              rw [Bool.and_eq_true, decide_eq_true_eq] at hT
              exact hc hT
            simp only [vad_scan, winFlagsGo, hflag, if_neg hc, vadF]
            rw [ih _ _ _ _ hlen]

theorem vadF_close_run (j : ℕ) (rest : List Bool) :
    ∀ (beg i cnt : ℕ),
      vadF (List.replicate j true ++ false :: rest) beg (some i) cnt
        = closeRegion i (cnt + j)
            :: vadF rest (beg + 160 * (j + 1)) none 0 := by
  induction j with
  | zero =>
      intro beg i cnt
      simp only [List.replicate, List.nil_append, vadF]
      norm_num
  | succ j ihj =>
      intro beg i cnt
      simp only [List.replicate_succ, List.cons_append, vadF, Option.getD,
        List.append_eq]
      rw [ihj (beg + 160) i (cnt + 1)]
      have e1 : cnt + 1 + j = cnt + (j + 1) := by omega
      have e2 : beg + 160 + 160 * (j + 1) = beg + 160 * (j + 1 + 1) := by ring
      rw [e1, e2]

theorem vadF_replicate_true_nil :
    ∀ (k beg : ℕ) (init : Option ℕ) (cnt : ℕ),
      vadF (List.replicate k true) beg init cnt = [] := by
  intro k
  induction k with
  | zero =>
      intro beg init cnt
      rfl
  | succ k ih =>
      intro beg init cnt
      simp only [List.replicate_succ, vadF]
      exact ih _ _ _

set_option maxRecDepth 4000 in
/-- C1 counterexample: a waveform consisting of one full speech-classified
window whose speech run extends to the very end of the buffer yields no
region at all from `vad_wav` (the still-open run is dropped when the
samples run out on a window boundary), although the claim demands a
region `(0, 80, 160)` for it. -/
theorem vad_wav_trailing_run_dropped :
    winFlags spHead1 wav160 = [true] ∧ vad_wav spHead1 wav160 = [] := by
  constructor
  · rfl
  · rfl

set_option maxRecDepth 4000 in
/-- C1 (amended): `vad_wav` equals the run state machine over the
per-window classification flags; every maximal speech run that is
followed by a non-speech (or undersized trailing) window is emitted as
`(begin, begin + duration/2, duration)` with `duration = count*160`; a
silence window with no open run emits nothing; a run that reaches the
end of the flags without a closing window is dropped. On the synthetic
[speech]x5, [silence]x3, [speech]x4 sequence this yields the two claimed
regions (0, 400, 800) and (1280, 1600, 640) provided an undersized
trailing window follows; a one-window speech run followed by a trailing
partial sample is emitted end-to-end by `vad_wav`. -/
theorem vad_wav_run_structure :
    (∀ (isSp : List ℤ → Bool) (wav : List ℤ),
        vad_wav isSp wav = vadF (winFlags isSp wav) 0 none 0)
      ∧ (∀ (beg k : ℕ) (rest : List Bool), 1 ≤ k →
        vadF (List.replicate k true ++ false :: rest) beg none 0
          = closeRegion beg k :: vadF rest (beg + 160 * (k + 1)) none 0)
      ∧ (∀ (beg : ℕ) (rest : List Bool),
        vadF (false :: rest) beg none 0 = vadF rest (beg + 160) none 0)
      ∧ (∀ (k beg : ℕ) (init : Option ℕ) (cnt : ℕ),
        vadF (List.replicate k true) beg init cnt = [])
      ∧ vadF flags534 0 none 0
          = [(0, (400 : ℚ), 800), (1280, (1600 : ℚ), 640)]
      ∧ vad_wav spHead1 wav161 = [(0, (80 : ℚ), 160)] := by
  refine ⟨?_, ?_, ?_, vadF_replicate_true_nil, ?_, ?_⟩
  · intro isSp wav
    exact vad_scan_eq_vadF isSp wav.length wav 0 none 0 (le_refl _)
  · intro beg k rest hk
    cases k with
    | zero => exact absurd hk (by norm_num)
    | succ j =>
        simp only [List.replicate_succ, List.cons_append, vadF, Option.getD,
          List.append_eq]
        rw [vadF_close_run j rest (beg + 160) beg 1]
        have e1 : 1 + j = j + 1 := by omega
        have e2 : beg + 160 + 160 * (j + 1) = beg + 160 * (j + 1 + 1) := by
          ring
        rw [e1, e2]
  · intro beg rest
    simp only [vadF, List.nil_append]
  · have h : vadF flags534 0 none 0
        = [closeRegion 0 5, closeRegion 1280 4] := rfl
    rw [h]
    norm_num [closeRegion]
  · have h : vad_wav spHead1 wav161 = [closeRegion 0 1] := rfl
    rw [h]
    norm_num [closeRegion]

/-- C1 witness: the run-emission part of the amended theorem applied to
a single-window speech run closed by one silence window. -/
theorem vad_wav_run_structure_witness :
    vadF (List.replicate 1 true ++ false :: []) 0 none 0
      = closeRegion 0 1 :: vadF [] (0 + 160 * (1 + 1)) none 0 :=
  vad_wav_run_structure.2.1 0 1 [] (by norm_num)

theorem zeroFrom_length {α : Type} [Zero α] (b e : ℕ) :
    ∀ (i : ℕ) (l : List α), (zeroFrom b e i l).length = l.length := by
  intro i l
  induction l generalizing i with
  | nil => rfl
  | cons x xs ih => simp only [zeroFrom, List.length_cons, ih]

theorem zeroSlice_length {α : Type} [Zero α] (w : List α) (b e : ℤ) :
    (zeroSlice w b e).length = w.length :=
  zeroFrom_length _ _ _ _

theorem zeroFrom_getD {α : Type} [Zero α] (b e : ℕ) :
    ∀ (l : List α) (i j : ℕ) (dflt : α),
      (zeroFrom b e i l).getD j dflt
        = if b ≤ i + j ∧ i + j < e ∧ j < l.length then 0
          else l.getD j dflt := by
  intro l
  induction l with
  | nil =>
      intro i j dflt
      simp [zeroFrom]
  | cons x xs ih =>
      intro i j dflt
      cases j with
      | zero =>
          simp only [zeroFrom, List.getD_cons_zero, Nat.add_zero]
          by_cases hbe : b ≤ i ∧ i < e
          · rw [if_pos hbe, if_pos ⟨hbe.1, hbe.2, Nat.succ_pos _⟩]
          · rw [if_neg hbe, if_neg (fun h => hbe ⟨h.1, h.2.1⟩)]
      | succ j =>
          simp only [zeroFrom, List.getD_cons_succ]
          rw [ih (i + 1) j dflt]
          have e1 : i + 1 + j = i + (j + 1) := by omega
          rw [e1]
          by_cases hc : b ≤ i + (j + 1) ∧ i + (j + 1) < e ∧ j < xs.length
          · rw [if_pos hc, if_pos ⟨hc.1, hc.2.1, by
              simpa using Nat.succ_lt_succ hc.2.2⟩]
          · rw [if_neg hc, if_neg (fun h => hc ⟨h.1, h.2.1, by
              simpa using Nat.lt_of_succ_lt_succ h.2.2⟩)]

theorem zeroSlice_getD_outside {α : Type} [Zero α] (w : List α) (b e : ℤ)
    (j : ℕ) (dflt : α)
    (h : j < pyIdx w.length b ∨ pyIdx w.length e ≤ j) :
    (zeroSlice w b e).getD j dflt = w.getD j dflt := by
  rw [zeroSlice, zeroFrom_getD]
  refine if_neg (fun hc => ?_)
  rcases h with h1 | h2
  · omega
  · omega

theorem chop_apply_length {α : Type} [Zero α] (cf : List (ℚ × ℚ))
    (srate : ℕ) (regions : List Region) (d : ChopDraws) :
    ∀ (cis : List ℕ) (pos : ℕ) (w : List α),
      (chop_apply cf srate regions d cis pos w).length = w.length := by
  intro cis
  induction cis with
  | nil => intro pos w; rfl
  | cons ci rest ih =>
      intro pos w
      simp only [chop_apply]
      rw [ih (pos + 1) _, zeroSlice_length]

theorem chop_apply_outside {α : Type} [Zero α] (cf : List (ℚ × ℚ))
    (srate : ℕ) (regions : List Region) (d : ChopDraws) :
    ∀ (cis : List ℕ) (pos : ℕ) (w : List α) (j : ℕ) (dflt : α),
      (∀ p ∈ chop_windows_go cf srate regions d w.length cis pos,
        j < p.1 ∨ p.2 ≤ j) →
      (chop_apply cf srate regions d cis pos w).getD j dflt
        = w.getD j dflt := by
  intro cis
  induction cis with
  | nil =>
      intro pos w j dflt hout
      rfl
  | cons ci rest ih =>
      intro pos w j dflt hout
      simp only [chop_apply]
      have hlen : (zeroSlice w (chop_bounds cf srate regions d pos ci).1
          (chop_bounds cf srate regions d pos ci).2).length = w.length :=
        zeroSlice_length _ _ _
      have htail : ∀ p ∈ chop_windows_go cf srate regions d
          (zeroSlice w (chop_bounds cf srate regions d pos ci).1
            (chop_bounds cf srate regions d pos ci).2).length rest (pos + 1),
          j < p.1 ∨ p.2 ≤ j := by
        rw [hlen]
        intro p hp
        exact hout p (by
          simp only [chop_windows_go, List.mem_cons]
          exact Or.inr hp)
      rw [ih (pos + 1) _ j dflt htail]
      refine zeroSlice_getD_outside w _ _ j dflt ?_
      exact hout _ (by simp only [chop_windows_go, List.mem_cons]; exact Or.inl rfl)

/-- C10: for a non-empty region list and any draws, every sample whose
index lies outside the union of the computed (normalised) chop windows
is unchanged by `chop_wav`; the input buffer itself is untouched, as
chopping happens on `np.copy` of it, modelled here by a pure function. -/
theorem chop_wav_outside_windows_unchanged {α : Type} [Zero α]
    (cf : List (ℚ × ℚ)) (srate : ℕ) (wav : List α) (regions : List Region)
    (d : ChopDraws) (j : ℕ) (dflt : α) (hne : regions ≠ [])
    (hout : ∀ p ∈ chop_windows cf srate regions d wav.length,
      j < p.1 ∨ p.2 ≤ j) :
    (chop_wav cf srate wav regions d).getD j dflt = wav.getD j dflt := by
  rw [chop_wav, if_neg hne]
  exact chop_apply_outside cf srate regions d _ 0 wav j dflt hout

/-- C10 witness: the frame theorem at a concrete buffer, region and
draw: the single window is `[0, 160)` and sample 170 is untouched. -/
theorem chop_wav_outside_windows_unchanged_witness :
    (chop_wav cf0 16000 (List.replicate 200 (1 : ℚ)) regions1 d0).getD 170 0
      = (List.replicate 200 (1 : ℚ)).getD 170 0 := by
  refine chop_wav_outside_windows_unchanged cf0 16000 _ regions1 d0 170 0
    (by simp [regions1]) ?_
  have hw : chop_windows cf0 16000 regions1 d0
      (List.replicate 200 (1 : ℚ)).length = [(0, 160)] := by
    norm_num [chop_windows, chop_windows_go, chop_bounds, regions1, cf0, d0,
      truncQ, pyIdx]
    decide
  rw [hw]
  intro p hp
  rw [List.mem_singleton.mp hp]
  norm_num

/-- C2: the failing selection support. With three detected regions and a
drawn chop count of 2, the index draw of line 506 samples from
`list(range(chops)) = [0, 1]`: region index 2 is not in the support, so
it can never be selected, although the claim (and the spec) require the
draw to range over all region indices 0..2. -/
theorem chop_idx_support_misses_region :
    chop_idx_support regions3 2 = [0, 1]
      ∧ (2 : ℕ) ∉ chop_idx_support regions3 2
      ∧ regions3.length = 3 := by
  refine ⟨rfl, ?_, rfl⟩
  rw [show chop_idx_support regions3 2 = [0, 1] from rfl]
  decide

/-- C9 counterexample: with no speech regions detected, the outer
`Chopper.__call__` still does not return the input unchanged: the sample
`1/2` comes back as the int16-quantised `16383/32767`. -/
theorem chopper_call_quantizes :
    chopper_call [] spNever d0 [1/2] = [16383/32767]
      ∧ (16383/32767 : ℚ) ≠ 1/2 := by
  constructor
  · have hiw : ([1/2] : List ℚ).map
        (fun q => toInt16 (q / (1 / ((2 ^ 15 : ℚ) - 1)))) = [16383] := by
      norm_num [toInt16, truncQ]
    have hvad : vad_wav spNever [(16383 : ℤ)] = [] := rfl
    have hchop : chop_wav ([] : List (ℚ × ℚ)) 16000 [(16383 : ℤ)] [] d0
        = [16383] := rfl
    simp only [chopper_call, hiw, hvad, hchop]
    norm_num
  · norm_num

theorem chop_wav_nil {α : Type} [Zero α] (cf : List (ℚ × ℚ)) (srate : ℕ)
    (wav : List α) (d : ChopDraws) : chop_wav cf srate wav [] d = wav := by
  simp [chop_wav]

/-- C9 (amended): `chop_wav` returns its input unchanged when the region
list is empty; when region detection on the int16-domain signal finds no
regions, the outer `Chopper.__call__` returns the int16 quantisation of
its input (the identity only on samples that are exact multiples of
`1/32767` in `[-1, 1]`), not the input itself. -/
theorem chop_wav_no_regions_id :
    (∀ (cf : List (ℚ × ℚ)) (srate : ℕ) (wav : List ℚ) (d : ChopDraws),
        chop_wav cf srate wav [] d = wav)
      ∧ (∀ (cf : List (ℚ × ℚ)) (isSp : List ℤ → Bool) (d : ChopDraws)
          (wav : List ℚ),
        vad_wav isSp (wav.map fun q =>
            toInt16 (q / (1 / ((2 ^ 15 : ℚ) - 1)))) = [] →
        chopper_call cf isSp d wav = wav.map quant16) := by
  refine ⟨fun cf srate wav d => chop_wav_nil cf srate wav d, ?_⟩
  intro cf isSp d wav hvad
  simp only [chopper_call]
  rw [hvad, chop_wav_nil, List.map_map]
  rfl

/-- C9 witness: the amended theorem at the one-sample buffer `[1/2]`
with the never-speech classifier. -/
theorem chop_wav_no_regions_id_witness :
    chopper_call [] spNever d0 [1/2] = ([1/2] : List ℚ).map quant16 := by
  refine chop_wav_no_regions_id.2 [] spNever d0 [1/2] ?_
  have hiw : ([1/2] : List ℚ).map
      (fun q => toInt16 (q / (1 / ((2 ^ 15 : ℚ) - 1)))) = [16383] := by
    norm_num [toInt16, truncQ]
  rw [hiw]
  rfl
